import Mathlib

/-! Verification of the tweet sentiment-analysis program (`program.py`).

Python strings are modelled as lists of characters (`Str`), machine
integers as `Int`/`Nat`, and the floating-point quality index as `ℚ`
(the arithmetic involved is exact scaling and summation of small
integers).  Fallible operations return `Except`.  Python `TypeError`
validations are unrepresentable in the typed embedding and are omitted;
all `ValueError` validations are embedded in source order.  The Unicode
tables behind NFKD normalization with ASCII-encode-ignore,
`str.lower`, and the `slugify` library are modelled on the character
domain of this program: ASCII plus the accented Latin letters that the
lexicons and tweets use. -/

namespace SentimentAnalysis

/-- A Python string, modelled as its list of characters. -/
abbrev Str := List Char

/-- Whitespace characters recognised by Python `str.strip` / `str.split`
(the ASCII whitespace set). -/
def isSpaceChar (c : Char) : Bool :=
  c == ' ' || c == '\t' || c == '\n' || c == '\r' || c == '\x0b' || c == '\x0c'

/-- Python `str.strip`: drop whitespace at both ends. -/
def pyStrip (s : Str) : Str :=
  ((s.dropWhile isSpaceChar).reverse.dropWhile isSpaceChar).reverse

/-- Lowercasing table for the accented Latin capitals in the modelled
character domain. -/
def accentLower (c : Char) : Char :=
  if c = 'Á' then 'á'
  else if c = 'É' then 'é'
  else if c = 'Í' then 'í'
  else if c = 'Ó' then 'ó'
  else if c = 'Ú' then 'ú'
  else if c = 'Ü' then 'ü'
  else if c = 'Ñ' then 'ñ'
  else c

/-- Python `str.lower` on one character: ASCII capitals move down by 32,
accented capitals go through the table, everything else is fixed. -/
def pyLowerChar (c : Char) : Char :=
  if 65 ≤ c.toNat ∧ c.toNat ≤ 90 then Char.ofNat (c.toNat + 32)
  else accentLower c

/-- One character of NFKD normalization followed by ASCII encoding in
ignore mode: ASCII characters survive unchanged; the
accented Latin letters of the modelled table decompose into their base
letter plus a combining mark, which the ASCII encoding drops; any other
non-ASCII character contributes no ASCII byte. -/
def nfkdAscii (c : Char) : List Char :=
  if c.toNat < 128 then [c]
  else if c = 'á' then ['a']
  else if c = 'é' then ['e']
  else if c = 'í' then ['i']
  else if c = 'ó' then ['o']
  else if c = 'ú' then ['u']
  else if c = 'ü' then ['u']
  else if c = 'ñ' then ['n']
  else if c = 'Á' then ['A']
  else if c = 'É' then ['E']
  else if c = 'Í' then ['I']
  else if c = 'Ó' then ['O']
  else if c = 'Ú' then ['U']
  else if c = 'Ü' then ['U']
  else if c = 'Ñ' then ['N']
  else []

/-- Characters that survive inside a slug: lowercase ASCII letters and
digits. -/
def pGood (c : Char) : Bool :=
  decide (97 ≤ c.toNat ∧ c.toNat ≤ 122) || decide (48 ≤ c.toNat ∧ c.toNat ≤ 57)

/-- Accumulator pass splitting a string into its maximal runs of
characters satisfying `p`; `acc` holds the current run reversed. -/
def runsCont (p : Char → Bool) : List Char → List Char → List (List Char)
  | [], acc => if acc.isEmpty then [] else [acc.reverse]
  | c :: cs, acc =>
    if p c then runsCont p cs (c :: acc)
    else if acc.isEmpty then runsCont p cs []
    else acc.reverse :: runsCont p cs []

/-- The maximal runs of characters satisfying `p` in a string. -/
def runs (p : Char → Bool) (s : List Char) : List (List Char) :=
  runsCont p s []

/-- Join a list of strings with a single separator character between
consecutive entries. -/
def joinSep (sep : Char) : List (List Char) → List Char
  | [] => []
  | r :: rs =>
    match rs with
    | [] => r
    | _ :: _ => r ++ sep :: joinSep sep rs

/-- The `slugify` library call on the character domain of this program:
lowercase, collapse every maximal run of non-slug characters into a
single hyphen, and strip leading/trailing hyphens — i.e. the maximal
alphanumeric runs joined by single hyphens. -/
def slugify (s : Str) : Str :=
  joinSep '-' (runs pGood (s.map pyLowerChar))

/-- `sanitize_text` (program.py:47): strip, lowercase, NFKD-decompose,
drop non-ASCII, slugify, and replace hyphens with spaces. -/
def sanitize_text (text : Str) : Str :=
  let t1 := pyStrip text
  let t2 := t1.map pyLowerChar
  let t3 := t2.flatMap nfkdAscii
  let t4 := slugify t3
  t4.map (fun c => if c = '-' then ' ' else c)

/-- Python `str.split()` with no argument: the maximal runs of
non-whitespace characters. -/
def pySplit (s : Str) : List Str :=
  runs (fun c => !isSpaceChar c) s

/-- Alphabetic characters of the modelled domain (Python `str.isalpha`
on one character): ASCII letters and the accented Latin letters of the
table. -/
def isAlphaChar (c : Char) : Bool :=
  decide (65 ≤ c.toNat ∧ c.toNat ≤ 90) || decide (97 ≤ c.toNat ∧ c.toNat ≤ 122) ||
    (nfkdAscii c != [c] && nfkdAscii c != [])

/-- Python `str.isalpha`: non-empty and every character alphabetic. -/
def pyIsAlpha (w : Str) : Bool :=
  !w.isEmpty && w.all isAlphaChar

/-- Alphanumeric characters of the modelled domain (Python
`str.isalnum` on one character). -/
def pyIsAlnumChar (c : Char) : Bool :=
  isAlphaChar c || decide (48 ≤ c.toNat ∧ c.toNat ≤ 57)

deriving instance DecidableEq for Except

/-- The distinguishable `ValueError` validation failures raised by
`get_count_vector`, `get_classification_vector` and `process_tweet`
(`TypeError` checks are unrepresentable in the typed embedding). -/
inductive PErr where
  | emptyWords
  | wordsNotAlpha
  | emptyTweet
  | emptyPositive
  | emptyNegative
  | emptyNeutral
  | positiveNotAlpha
  | negativeNotAlpha
  | neutralNotAlpha
deriving DecidableEq, Repr

/-- The inner double loop of `get_count_vector` (program.py:189-192),
one token at a time: slot `i` is incremented once for every list entry
equal to the token. -/
def bumpMatches (tok : Str) (words : List Str) (v : List Nat) : List Nat :=
  List.zipWith (fun w c => if w = tok then c + 1 else c) words v

/-- The outer loop of `get_count_vector` over the whitespace tokens of
the text. -/
def countTokens (words : List Str) : List Str → List Nat → List Nat
  | [], v => v
  | t :: ts, v => countTokens words ts (bumpMatches t words v)

/-- `get_count_vector` (program.py:159): validations in source order,
then the per-word occurrence counts of the tokens of the text. -/
def get_count_vector (text : Str) (words : List Str) : Except PErr (List Nat) :=
  if words.isEmpty then .error .emptyWords
  else if !(words.all pyIsAlpha) then .error .wordsNotAlpha
  else .ok (countTokens words (pySplit text) (words.map fun _ => 0))

/-- The inner loop of `get_classification_vector` over one word list for
one token: the slot grows by one per equal list entry. -/
def addMatches (tok : Str) : List Str → Nat → Nat
  | [], acc => acc
  | w :: ws, acc => addMatches tok ws (if w = tok then acc + 1 else acc)

/-- The outer loop of `get_classification_vector` over the tokens of
the text, threading the three category slots
`(positive, neutral, negative)`. -/
def classifyTokens (pos neu neg : List Str) : List Str → Nat × Nat × Nat → Nat × Nat × Nat
  | [], v => v
  | t :: ts, (a, b, c) =>
    classifyTokens pos neu neg ts
      (addMatches t pos a, addMatches t neu b, addMatches t neg c)

/-- `get_classification_vector` (program.py:196): validations in source
order, then the 3-slot category count vector
`[positive, neutral, negative]`. -/
def get_classification_vector (positive_words neutral_words negative_words : List Str)
    (text : Str) : Except PErr (Nat × Nat × Nat) :=
  if positive_words.isEmpty then .error .emptyPositive
  else if negative_words.isEmpty then .error .emptyNegative
  else if neutral_words.isEmpty then .error .emptyNeutral
  else if !(positive_words.all pyIsAlpha) then .error .positiveNotAlpha
  else if !(negative_words.all pyIsAlpha) then .error .negativeNotAlpha
  else if !(neutral_words.all pyIsAlpha) then .error .neutralNotAlpha
  else .ok (classifyTokens positive_words neutral_words negative_words (pySplit text) (0, 0, 0))

/-- `process_tweet` (program.py:256): validations in source order, then
the score `classification ⬝ [1, 0, -1]` and the quality index
`sum(np.dot(1/len(all_words), count_vector))`.  The float arithmetic of
the source is modelled exactly over `ℚ`. -/
def process_tweet (tweet : Str) (positive_words negative_words neutral_words all_words : List Str) :
    Except PErr (Int × ℚ) :=
  if tweet.isEmpty then .error .emptyTweet
  else if positive_words.isEmpty then .error .emptyPositive
  else if negative_words.isEmpty then .error .emptyNegative
  else if neutral_words.isEmpty then .error .emptyNeutral
  else if all_words.isEmpty then .error .emptyWords
  else if !(positive_words.all pyIsAlpha) then .error .positiveNotAlpha
  else if !(negative_words.all pyIsAlpha) then .error .negativeNotAlpha
  else if !(neutral_words.all pyIsAlpha) then .error .neutralNotAlpha
  else if !(all_words.all pyIsAlpha) then .error .wordsNotAlpha
  else
    match get_count_vector tweet all_words,
        get_classification_vector positive_words neutral_words negative_words tweet with
    | .ok cv, .ok (a, b, c) =>
      let score : Int := (a : Int) * 1 + (b : Int) * 0 + (c : Int) * (-1)
      let quality : ℚ := (cv.map fun (k : Nat) => (1 / (all_words.length : ℚ)) * (k : ℚ)).sum
      .ok (score, quality)
    | .error e, _ => .error e
    | .ok _, .error e => .error e

/-- JSON values, as produced by the Python `json.load` call. -/
inductive Json where
  | str : Str → Json
  | num : Int → Json
  | bool : Bool → Json
  | null : Json
  | arr : List Json → Json
  | obj : List (String × Json) → Json

/-- Whether a JSON value is an array whose items are all strings
(the per-category array-of-strings schema). -/
def isStrArray : Json → Bool
  | .arr xs => xs.all fun j => match j with | .str _ => true | _ => false
  | _ => false

/-- The three property keys of `WORDS_JSON_SCHEMA` (program.py:36). -/
def keyNames : List String := [("positive"), ("negative"), ("neutral")]

/-- `jsonschema.validate` against `WORDS_JSON_SCHEMA`: an object, the
three keys all present and no others, every value an array of strings. -/
def validateSchema : Json → Bool
  | .obj fields =>
    (fields.any fun kv => kv.1 = ("positive")) &&
    (fields.any fun kv => kv.1 = ("negative")) &&
    (fields.any fun kv => kv.1 = ("neutral")) &&
    (fields.all fun kv => keyNames.contains kv.1) &&
    (fields.all fun kv => isStrArray kv.2)
  | _ => false

/-- Field lookup in a JSON object (first occurrence; `json.load` never
yields duplicate keys). -/
def getField (fields : List (String × Json)) (k : String) : Json :=
  match fields.find? (fun kv => kv.1 = k) with
  | some kv => kv.2
  | none => .null

/-- The string elements of a JSON array (under the schema every element
is a string). -/
def strsOf : Json → List Str
  | .arr xs => xs.filterMap fun j => match j with | .str s => some s | _ => none
  | _ => []

/-- The distinguishable `ValueError` failures of `load_words`
(program.py:126-155), in source order: schema mismatch, an empty
category, duplicated words after sanitization. -/
inductive LoadErr where
  | badFormat
  | emptyPositive
  | emptyNegative
  | emptyNeutral
  | duplicates
deriving DecidableEq, Repr

/-- The payload-validation core of `load_words` (program.py:100): the
file reading and path checks are I/O glue outside the core; the parsed
JSON payload is the input here.  Schema validation, non-emptiness of
each category, sanitization of every word, and the duplicate check
`len(all_words) != len(set(all_words))` follow the source order. -/
def load_words (j : Json) : Except LoadErr (List Str × List Str × List Str × List Str) :=
  if validateSchema j then
    match j with
    | .obj fields =>
      let positive0 := strsOf (getField fields ("positive"))
      let negative0 := strsOf (getField fields ("negative"))
      let neutral0 := strsOf (getField fields ("neutral"))
      if positive0.isEmpty then .error .emptyPositive
      else if negative0.isEmpty then .error .emptyNegative
      else if neutral0.isEmpty then .error .emptyNeutral
      else
        let positive := positive0.map sanitize_text
        let negative := negative0.map sanitize_text
        let neutral := neutral0.map sanitize_text
        let all_words := positive ++ negative ++ neutral
        if all_words.dedup.length ≠ all_words.length then .error .duplicates
        else .ok (positive, negative, neutral, all_words)
    | _ => .error .badFormat
  else .error .badFormat

/-! ## Generic list helpers -/

/-- A list whose characters are all fixed by `f` is fixed by `map f`. -/
theorem map_id_of_fix {f : Char → Char} : ∀ {s : Str}, (∀ c ∈ s, f c = c) → s.map f = s
  | [], _ => rfl
  | c :: cs, h => by
    simp only [List.map_cons, h c (by simp)]
    exact congrArg (c :: ·) (map_id_of_fix fun d hd => h d (by simp [hd]))

/-- A list whose characters all map to singletons is fixed by
`flatMap nfkdAscii`. -/
theorem flatMap_nfkd_fix : ∀ {s : Str}, (∀ c ∈ s, nfkdAscii c = [c]) → s.flatMap nfkdAscii = s
  | [], _ => rfl
  | c :: cs, h => by
    simp only [List.flatMap_cons, h c (by simp)]
    exact congrArg (c :: ·) (flatMap_nfkd_fix fun d hd => h d (by simp [hd]))

/-! ## Runs: soundness and reconstruction -/

theorem joinSep_cons₂ (sep : Char) (r r' : Str) (rs : List Str) :
    joinSep sep (r :: r' :: rs) = r ++ sep :: joinSep sep (r' :: rs) := rfl

theorem runsCont_append_good {p : Char → Bool} {g : Str} (hg : ∀ c ∈ g, p c = true) :
    ∀ (rest acc : Str), runsCont p (g ++ rest) acc = runsCont p rest (g.reverse ++ acc) := by
  induction g with
  | nil => intro rest acc; simp
  | cons c g' ih =>
    intro rest acc
    have hc : p c = true := hg c (by simp)
    have hg' : ∀ d ∈ g', p d = true := fun d hd => hg d (by simp [hd])
    have ih' := ih hg' rest (c :: acc)
    simp only [List.cons_append, runsCont, hc, if_true, List.reverse_cons,
      List.append_assoc, List.singleton_append]
    exact ih'

/-- A non-empty all-good string is a single run. -/
theorem runs_single {p : Char → Bool} {r : Str} (hne : r ≠ []) (hr : ∀ c ∈ r, p c = true) :
    runs p r = [r] := by
  have h := runsCont_append_good hr [] []
  simp only [List.append_nil] at h
  unfold runs
  rw [h]
  simp only [runsCont, List.append_nil, List.isEmpty_iff, List.reverse_eq_nil_iff]
  rw [if_neg hne]
  simp

/-- Peeling the first run off a separated string. -/
theorem runs_append_sep {p : Char → Bool} {r : Str} {x : Char} {t : Str}
    (hne : r ≠ []) (hr : ∀ c ∈ r, p c = true) (hx : p x = false) :
    runs p (r ++ x :: t) = r :: runs p t := by
  unfold runs
  rw [runsCont_append_good hr (x :: t) []]
  simp only [runsCont, hx, Bool.false_eq_true, if_false, List.append_nil,
    List.isEmpty_iff, List.reverse_eq_nil_iff]
  rw [if_neg hne]
  simp

/-- A string without good characters has no runs. -/
theorem runs_nil_of_none {p : Char → Bool} : ∀ {s : Str}, (∀ c ∈ s, p c = false) →
    runs p s = []
  | [], _ => rfl
  | c :: cs, h => by
    unfold runs runsCont
    rw [h c (by simp)]
    simp only [Bool.false_eq_true, if_false, List.isEmpty_nil, if_true]
    exact runs_nil_of_none fun d hd => h d (by simp [hd])

/-- Every run is non-empty and consists of good characters. -/
theorem runsCont_sound {p : Char → Bool} : ∀ {s : Str} {acc : Str}, (∀ c ∈ acc, p c = true) →
    ∀ r ∈ runsCont p s acc, r ≠ [] ∧ ∀ c ∈ r, p c = true := by
  intro s
  induction s with
  | nil =>
    intro acc hacc r hr
    simp only [runsCont] at hr
    split at hr
    · simp at hr
    · rename_i hne
      simp only [List.mem_singleton] at hr
      subst hr
      simp only [List.isEmpty_iff] at hne
      constructor
      · simpa using hne
      · intro c hc
        exact hacc c (by simpa using hc)
  | cons c cs ih =>
    intro acc hacc r hr
    simp only [runsCont] at hr
    split at hr
    · rename_i hc
      have hacc' : ∀ d ∈ c :: acc, p d = true := by
        intro d hd
        rcases List.mem_cons.mp hd with h | h
        · exact h ▸ hc
        · exact hacc d h
      exact ih hacc' r hr
    · split at hr
      · exact ih (by simp) r hr
      · rename_i hne
        rcases List.mem_cons.mp hr with h | h
        · subst h
          simp only [List.isEmpty_iff] at hne
          refine ⟨by simpa using hne, fun d hd => hacc d (by simpa using hd)⟩
        · exact ih (by simp) r h

theorem runs_sound {p : Char → Bool} {s : Str} :
    ∀ r ∈ runs p s, r ≠ [] ∧ ∀ c ∈ r, p c = true :=
  runsCont_sound (by simp)

/-- Reconstruction: splitting a separator-joined list of good runs gives
back exactly those runs. -/
theorem runs_joinSep {p : Char → Bool} {sep : Char} (hsep : p sep = false) :
    ∀ {rs : List Str}, (∀ r ∈ rs, r ≠ [] ∧ ∀ c ∈ r, p c = true) →
      runs p (joinSep sep rs) = rs
  | [], _ => rfl
  | [r], h => by
    have hr := h r (by simp)
    simpa [joinSep] using runs_single hr.1 hr.2
  | r :: r' :: rs, h => by
    have hr := h r (by simp)
    have hrest : ∀ x ∈ r' :: rs, x ≠ [] ∧ ∀ c ∈ x, p c = true := by
      intro x hx
      exact h x (by simp [List.mem_cons] at hx ⊢; tauto)
    have ih := runs_joinSep hsep hrest
    rw [joinSep_cons₂, runs_append_sep hr.1 hr.2 hsep, ih]

/-! ## joinSep: membership, ends, non-emptiness -/

theorem joinSep_ne_nil {sep : Char} : ∀ {rs : List Str}, rs ≠ [] → (∀ r ∈ rs, r ≠ []) →
    joinSep sep rs ≠ []
  | [], h, _ => absurd rfl h
  | [r], _, hr => by simpa [joinSep] using hr r (by simp)
  | r :: r' :: rs, _, hr => by
    rw [joinSep_cons₂]
    intro h
    exact hr r (by simp) (List.append_eq_nil.mp h).1

theorem mem_joinSep {sep : Char} : ∀ {rs : List Str} {c : Char}, c ∈ joinSep sep rs →
    c = sep ∨ ∃ r ∈ rs, c ∈ r
  | [], c, h => by simp [joinSep] at h
  | [r], c, h => by
    right
    exact ⟨r, by simp, by simpa [joinSep] using h⟩
  | r :: r' :: rs, c, h => by
    rw [joinSep_cons₂] at h
    rcases List.mem_append.mp h with h | h
    · exact Or.inr ⟨r, by simp, h⟩
    · rcases List.mem_cons.mp h with h | h
      · exact Or.inl h
      · rcases mem_joinSep h with h | ⟨x, hx, hcx⟩
        · exact Or.inl h
        · exact Or.inr ⟨x, by simp [List.mem_cons] at hx ⊢; tauto, hcx⟩

theorem head?_joinSep {sep : Char} : ∀ {rs : List Str}, (∀ r ∈ rs, r ≠ []) →
    ∀ {c : Char}, (joinSep sep rs).head? = some c → ∃ r ∈ rs, c ∈ r
  | [], _, c, h => by simp [joinSep] at h
  | r :: rs, hr, c, h => by
    have hrne : r ≠ [] := hr r (by simp)
    obtain ⟨a, t, rfl⟩ := List.exists_cons_of_ne_nil hrne
    have hhead : a = c := by
      cases rs with
      | nil => simpa [joinSep] using h
      | cons r' rs' => simpa [joinSep_cons₂] using h
    exact ⟨a :: t, by simp, by rw [← hhead]; simp⟩

theorem getLast?_joinSep {sep : Char} : ∀ {rs : List Str}, (∀ r ∈ rs, r ≠ []) →
    ∀ {c : Char}, (joinSep sep rs).getLast? = some c → ∃ r ∈ rs, c ∈ r
  | [], _, c, h => by simp [joinSep] at h
  | [r], hr, c, h => by
    refine ⟨r, by simp, ?_⟩
    have hjr : (joinSep sep [r]) = r := rfl
    rw [hjr] at h
    exact List.mem_of_getLast?_eq_some h
  | r :: r' :: rs, hr, c, h => by
    rw [joinSep_cons₂] at h
    have hsub : ∀ x ∈ r' :: rs, x ≠ [] := fun x hx => hr x (by simp [List.mem_cons] at hx ⊢; tauto)
    have hne : joinSep sep (r' :: rs) ≠ [] := joinSep_ne_nil (by simp) hsub
    obtain ⟨b, t, hbt⟩ := List.exists_cons_of_ne_nil hne
    rw [hbt, List.getLast?_append, List.getLast?_cons_cons] at h
    cases hbl : (b :: t).getLast? with
    | none => exact absurd (List.getLast?_eq_none_iff.mp hbl) (by simp)
    | some x =>
      rw [hbl] at h
      simp only [Option.or_some, Option.some.injEq] at h
      subst h
      obtain ⟨y, hy, hcy⟩ := getLast?_joinSep hsub (c := x) (by rw [hbt, hbl])
      exact ⟨y, by simp [List.mem_cons] at hy ⊢; tauto, hcy⟩

/-! ## Character-level facts -/

theorem pGood_iff {c : Char} :
    pGood c = true ↔ (97 ≤ c.toNat ∧ c.toNat ≤ 122) ∨ (48 ≤ c.toNat ∧ c.toNat ≤ 57) := by
  simp [pGood, decide_eq_true_eq]

theorem pGood_lt128 {c : Char} (h : pGood c = true) : c.toNat < 128 := by
  rcases pGood_iff.mp h with h | h
  · omega
  · omega

theorem pGood_not_space {c : Char} (h : pGood c = true) : isSpaceChar c = false := by
  have hn := pGood_iff.mp h
  simp only [isSpaceChar, Bool.or_eq_false_iff, beq_eq_false_iff_ne]
  refine ⟨⟨⟨⟨⟨?_, ?_⟩, ?_⟩, ?_⟩, ?_⟩, ?_⟩ <;>
    · rintro rfl
      revert hn
      decide

theorem pGood_ne_space {c : Char} (h : pGood c = true) : c ≠ ' ' := by
  rintro rfl
  revert h
  decide

/-- `accentLower` fixes every ASCII character. -/
theorem accentLower_fix {c : Char} (h : c.toNat < 128) : accentLower c = c := by
  unfold accentLower
  rw [if_neg, if_neg, if_neg, if_neg, if_neg, if_neg, if_neg] <;>
    · rintro rfl
      revert h
      decide

/-- `pyLowerChar` fixes slug characters and the space. -/
theorem pyLowerChar_fix {c : Char} (h : pGood c = true ∨ c = ' ') : pyLowerChar c = c := by
  have h128 : c.toNat < 128 := by
    rcases h with h | h
    · exact pGood_lt128 h
    · subst h; decide
  have hno : ¬(65 ≤ c.toNat ∧ c.toNat ≤ 90) := by
    rcases h with h | h
    · rcases pGood_iff.mp h with h | h <;> omega
    · subst h
      decide
  unfold pyLowerChar
  rw [if_neg hno]
  exact accentLower_fix h128

/-- `nfkdAscii` maps every ASCII character to its singleton. -/
theorem nfkdAscii_ascii {c : Char} (h : c.toNat < 128) : nfkdAscii c = [c] := by
  unfold nfkdAscii
  rw [if_pos h]

/-! ## The shape of sanitized text -/

/-- Replacing hyphens by spaces in a hyphen-joined list of
hyphen-free runs gives the space-joined list. -/
theorem map_repl_joinSep : ∀ {rs : List Str}, (∀ r ∈ rs, ∀ c ∈ r, pGood c = true) →
    (joinSep '-' rs).map (fun c => if c = '-' then ' ' else c) = joinSep ' ' rs
  | [], _ => rfl
  | [r], h => by
    simp only [joinSep]
    apply map_id_of_fix
    intro c hc
    rw [if_neg]
    rintro rfl
    exact absurd (h _ (by simp) _ hc) (by decide)
  | r :: r' :: rs, h => by
    rw [joinSep_cons₂, joinSep_cons₂, List.map_append, List.map_cons]
    rw [map_repl_joinSep (fun x hx => h x (by simp [List.mem_cons] at hx ⊢; tauto))]
    rw [map_id_of_fix (fun c hc => by
      rw [if_neg]
      rintro rfl
      exact absurd (h _ (by simp) _ hc) (by decide))]
    rw [if_pos rfl]

/-- The character stream that `slugify` splits inside `sanitize_text`. -/
def sanitizeCore (text : Str) : Str :=
  ((((pyStrip text).map pyLowerChar).flatMap nfkdAscii).map pyLowerChar)

theorem sanitize_text_eq_joinSep (text : Str) :
    sanitize_text text = joinSep ' ' (runs pGood (sanitizeCore text)) := by
  have h1 : sanitize_text text
      = (joinSep '-' (runs pGood (sanitizeCore text))).map
        (fun c => if c = '-' then ' ' else c) := rfl
  rw [h1]
  exact map_repl_joinSep fun r hr c hc => (runs_sound r hr).2 c hc

/-- `pyStrip` fixes every string whose first and last characters are not
whitespace. -/
theorem pyStrip_fix {s : Str}
    (hh : ∀ c, s.head? = some c → isSpaceChar c = false)
    (hl : ∀ c, s.getLast? = some c → isSpaceChar c = false) :
    pyStrip s = s := by
  have h1 : s.dropWhile isSpaceChar = s := by
    cases s with
    | nil => rfl
    | cons a t =>
      rw [List.dropWhile_cons_of_neg]
      simp [hh a rfl]
  have h2 : s.reverse.dropWhile isSpaceChar = s.reverse := by
    cases hrev : s.reverse with
    | nil => rfl
    | cons b u =>
      rw [List.dropWhile_cons_of_neg]
      have hb : s.getLast? = some b := by
        rw [List.getLast?_eq_head?_reverse, hrev]
        rfl
      simp [hl b hb]
  unfold pyStrip
  rw [h1, h2, List.reverse_reverse]

/-- `sanitize_text` fixes every space-joined list of good runs: the key
fixpoint behind idempotence. -/
theorem sanitize_text_fix {rs : List Str}
    (h : ∀ r ∈ rs, r ≠ [] ∧ ∀ c ∈ r, pGood c = true) :
    sanitize_text (joinSep ' ' rs) = joinSep ' ' rs := by
  have hne : ∀ r ∈ rs, r ≠ [] := fun r hr => (h r hr).1
  have hmem : ∀ c ∈ joinSep ' ' rs, pGood c = true ∨ c = ' ' := by
    intro c hc
    rcases mem_joinSep hc with hc | ⟨r, hr, hcr⟩
    · exact Or.inr hc
    · exact Or.inl ((h r hr).2 c hcr)
  have hstrip : pyStrip (joinSep ' ' rs) = joinSep ' ' rs := by
    apply pyStrip_fix
    · intro c hc
      obtain ⟨r, hr, hcr⟩ := head?_joinSep hne hc
      exact pGood_not_space ((h r hr).2 c hcr)
    · intro c hc
      obtain ⟨r, hr, hcr⟩ := getLast?_joinSep hne hc
      exact pGood_not_space ((h r hr).2 c hcr)
  have hlower : (joinSep ' ' rs).map pyLowerChar = joinSep ' ' rs :=
    map_id_of_fix fun c hc => pyLowerChar_fix (hmem c hc)
  have hflat : (joinSep ' ' rs).flatMap nfkdAscii = joinSep ' ' rs := by
    apply flatMap_nfkd_fix
    intro c hc
    apply nfkdAscii_ascii
    rcases hmem c hc with hg | hsp
    · exact pGood_lt128 hg
    · subst hsp; decide
  rw [sanitize_text_eq_joinSep]
  unfold sanitizeCore
  rw [hstrip, hlower, hflat, hlower]
  rw [runs_joinSep (by decide) h]

/-! ## Space discipline of sanitized text -/

/-- No two consecutive spaces anywhere in the string. -/
def noTwoSpaces : Str → Bool
  | [] => true
  | [_] => true
  | a :: b :: t => !(a == ' ' && b == ' ') && noTwoSpaces (b :: t)

theorem noTwoSpaces_of_noSpace : ∀ {x : Str}, (∀ c ∈ x, c ≠ ' ') → noTwoSpaces x = true := by
  intro x
  induction x with
  | nil => intro _; rfl
  | cons a t ih =>
    intro h
    cases t with
    | nil => rfl
    | cons b u =>
      simp only [noTwoSpaces, Bool.and_eq_true, Bool.not_eq_true']
      constructor
      · simp [h a (by simp)]
      · exact ih fun c hc => h c (by simp [List.mem_cons] at hc ⊢; tauto)

theorem noTwoSpaces_append_sep {y : Str} (hy : noTwoSpaces y = true)
    (hhead : ∀ c, y.head? = some c → c ≠ ' ') :
    ∀ {x : Str}, (∀ c ∈ x, c ≠ ' ') → noTwoSpaces (x ++ ' ' :: y) = true := by
  intro x
  induction x with
  | nil =>
    intro _
    cases y with
    | nil => rfl
    | cons b u =>
      simp only [List.nil_append, noTwoSpaces, Bool.and_eq_true, Bool.not_eq_true']
      exact ⟨by simp [hhead b rfl], hy⟩
  | cons a x' ih =>
    intro hx
    have ha : a ≠ ' ' := hx a (by simp)
    cases x' with
    | nil =>
      have h2 := ih (by simp)
      simp only [List.nil_append] at h2
      simp only [List.cons_append, List.nil_append, noTwoSpaces, Bool.and_eq_true,
        Bool.not_eq_true']
      exact ⟨by simp [ha], h2⟩
    | cons a' x'' =>
      have h2 := ih fun c hc => hx c (by simp [List.mem_cons] at hc ⊢; tauto)
      simp only [List.cons_append, noTwoSpaces, Bool.and_eq_true, Bool.not_eq_true'] at h2 ⊢
      exact ⟨by simp [ha], h2⟩

theorem noTwoSpaces_joinSep : ∀ {rs : List Str},
    (∀ r ∈ rs, r ≠ [] ∧ ∀ c ∈ r, pGood c = true) → noTwoSpaces (joinSep ' ' rs) = true
  | [], _ => rfl
  | [r], h =>
    noTwoSpaces_of_noSpace fun c hc => pGood_ne_space ((h r (by simp)).2 c hc)
  | r :: r' :: rs, h => by
    have hsub : ∀ x ∈ r' :: rs, x ≠ [] ∧ ∀ c ∈ x, pGood c = true :=
      fun x hx => h x (by simp [List.mem_cons] at hx ⊢; tauto)
    rw [joinSep_cons₂]
    apply noTwoSpaces_append_sep (noTwoSpaces_joinSep hsub)
    · intro c hc
      obtain ⟨x, hx, hcx⟩ := head?_joinSep (fun x hx => (hsub x hx).1) hc
      exact pGood_ne_space ((hsub x hx).2 c hcx)
    · exact fun c hc => pGood_ne_space ((h r (by simp)).2 c hc)

/-! ## Non-alphanumeric input yields the empty sanitization -/

theorem pyIsAlnumChar_false_elim {c : Char} (h : pyIsAlnumChar c = false) :
    ¬(65 ≤ c.toNat ∧ c.toNat ≤ 90) ∧ ¬(97 ≤ c.toNat ∧ c.toNat ≤ 122) ∧
      ¬(48 ≤ c.toNat ∧ c.toNat ≤ 57) ∧ (nfkdAscii c = [c] ∨ nfkdAscii c = []) := by
  simp only [pyIsAlnumChar, isAlphaChar, Bool.or_eq_false_iff, Bool.and_eq_false_iff,
    decide_eq_false_iff_not, bne_eq_false_iff_eq] at h
  tauto

theorem accentLower_fix_of_nonalnum {c : Char} (h : pyIsAlnumChar c = false) :
    accentLower c = c := by
  unfold accentLower
  rw [if_neg, if_neg, if_neg, if_neg, if_neg, if_neg, if_neg] <;>
    · rintro rfl
      revert h
      decide

theorem pyLowerChar_fix_of_nonalnum {c : Char} (h : pyIsAlnumChar c = false) :
    pyLowerChar c = c := by
  unfold pyLowerChar
  rw [if_neg (pyIsAlnumChar_false_elim h).1]
  exact accentLower_fix_of_nonalnum h

theorem nfkd_nonalnum_sub {c : Char} (h : pyIsAlnumChar c = false) :
    ∀ d ∈ nfkdAscii c, pyIsAlnumChar d = false := by
  rcases (pyIsAlnumChar_false_elim h).2.2.2 with he | he
  all_goals rw [he]
  · intro d hd
    simp only [List.mem_singleton] at hd
    exact hd ▸ h
  · simp

theorem not_pGood_of_nonalnum {c : Char} (h : pyIsAlnumChar c = false) : pGood c = false := by
  have hd := pyIsAlnumChar_false_elim h
  rw [Bool.eq_false_iff]
  intro hg
  rcases pGood_iff.mp hg with hr | hr
  · exact hd.2.1 hr
  · exact hd.2.2.1 hr

theorem mem_pyStrip {s : Str} {c : Char} (h : c ∈ pyStrip s) : c ∈ s := by
  unfold pyStrip at h
  rw [List.mem_reverse] at h
  have h1 := (List.dropWhile_sublist _).subset h
  rw [List.mem_reverse] at h1
  exact (List.dropWhile_sublist _).subset h1

theorem sanitizeCore_nonalnum {s : Str} (h : ∀ c ∈ s, pyIsAlnumChar c = false) :
    ∀ d ∈ sanitizeCore s, pyIsAlnumChar d = false := by
  intro d hd
  unfold sanitizeCore at hd
  simp only [List.mem_map, List.mem_flatMap] at hd
  obtain ⟨e, ⟨f, ⟨g, hg, hfg⟩, hef⟩, hde⟩ := hd
  have hg' : pyIsAlnumChar g = false := h g (mem_pyStrip hg)
  have hf : f = g := by rw [← hfg, pyLowerChar_fix_of_nonalnum hg']
  have he : pyIsAlnumChar e = false := nfkd_nonalnum_sub (hf ▸ hg') e hef
  rw [← hde, pyLowerChar_fix_of_nonalnum he]
  exact he

theorem sanitize_empty_of_nonalnum {s : Str} (h : ∀ c ∈ s, pyIsAlnumChar c = false) :
    sanitize_text s = [] := by
  rw [sanitize_text_eq_joinSep]
  rw [runs_nil_of_none fun c hc => not_pGood_of_nonalnum (sanitizeCore_nonalnum h c hc)]
  rfl

/-! ## Claims C5 and C6 -/

/-- C5: for every string `s`, `sanitize_text (sanitize_text s)` equals
`sanitize_text s` — the sanitizer is idempotent. -/
theorem claim_C5 (s : Str) : sanitize_text (sanitize_text s) = sanitize_text s := by
  calc sanitize_text (sanitize_text s)
      = sanitize_text (joinSep ' ' (runs pGood (sanitizeCore s))) := by
        rw [sanitize_text_eq_joinSep s]
    _ = joinSep ' ' (runs pGood (sanitizeCore s)) := sanitize_text_fix runs_sound
    _ = sanitize_text s := (sanitize_text_eq_joinSep s).symm

/-- C6: every character of `sanitize_text s` is a lowercase ASCII letter,
an ASCII digit, or a space; the result has no leading, trailing, or
consecutive spaces; and it is empty when `s` has no alphanumeric
content. -/
theorem claim_C6 (s : Str) :
    (∀ c ∈ sanitize_text s,
      (97 ≤ c.toNat ∧ c.toNat ≤ 122) ∨ (48 ≤ c.toNat ∧ c.toNat ≤ 57) ∨ c = ' ') ∧
    (sanitize_text s).head? ≠ some ' ' ∧
    (sanitize_text s).getLast? ≠ some ' ' ∧
    noTwoSpaces (sanitize_text s) = true ∧
    ((∀ c ∈ s, pyIsAlnumChar c = false) → sanitize_text s = []) := by
  have hne : ∀ r ∈ runs pGood (sanitizeCore s), r ≠ [] :=
    fun r hr => (runs_sound r hr).1
  refine ⟨?_, ?_, ?_, ?_, sanitize_empty_of_nonalnum⟩
  · intro c hc
    rw [sanitize_text_eq_joinSep s] at hc
    rcases mem_joinSep hc with hc | ⟨r, hr, hcr⟩
    · exact Or.inr (Or.inr hc)
    · rcases pGood_iff.mp ((runs_sound r hr).2 c hcr) with h | h
      · exact Or.inl h
      · exact Or.inr (Or.inl h)
  · rw [sanitize_text_eq_joinSep s]
    intro hc
    obtain ⟨r, hr, hcr⟩ := head?_joinSep hne hc
    exact absurd ((runs_sound r hr).2 ' ' hcr) (by decide)
  · rw [sanitize_text_eq_joinSep s]
    intro hc
    obtain ⟨r, hr, hcr⟩ := getLast?_joinSep hne hc
    exact absurd ((runs_sound r hr).2 ' ' hcr) (by decide)
  · rw [sanitize_text_eq_joinSep s]
    exact noTwoSpaces_joinSep runs_sound

/-- Witness for C6 at a concrete input: a string of pure punctuation
sanitizes to the empty string. -/
theorem claim_C6_witness : sanitize_text (("??!").toList) = [] :=
  (claim_C6 (("??!").toList)).2.2.2.2 (by decide)

/-! ## Closed forms of the counting loops -/

theorem isEmpty_false_of_ne_nil {α : Type} {l : List α} (h : l ≠ []) : l.isEmpty = false := by
  cases l with
  | nil => exact absurd rfl h
  | cons a t => rfl

theorem count_cons_flip (w t : Str) (ts : List Str) :
    (t :: ts).count w = ts.count w + if w = t then 1 else 0 := by
  rw [List.count_cons]
  rcases eq_or_ne w t with h | h
  · subst h
    simp
  · simp [h, Ne.symm h]

theorem bumpMatches_map (tok : Str) (f : Str → Nat) :
    ∀ words : List Str,
      bumpMatches tok words (words.map f) = words.map fun w => if w = tok then f w + 1 else f w
  | [] => rfl
  | w :: ws => by
    simp only [bumpMatches, List.map_cons, List.zipWith_cons_cons]
    exact congrArg _ (bumpMatches_map tok f ws)

theorem countTokens_map (words : List Str) :
    ∀ (ts : List Str) (f : Str → Nat),
      countTokens words ts (words.map f) = words.map fun w => f w + ts.count w
  | [], f => by simp [countTokens]
  | t :: ts, f => by
    rw [countTokens, bumpMatches_map, countTokens_map words ts]
    apply List.map_congr_left
    intro w _
    rw [count_cons_flip w t ts]
    rcases eq_or_ne w t with h | h
    · rw [if_pos h, if_pos h]
      omega
    · rw [if_neg h, if_neg h]
      omega

/-- The count vector is the per-word token count, in word-list order. -/
theorem countTokens_closed (words ts : List Str) :
    countTokens words ts (words.map fun _ => 0) = words.map fun w => ts.count w := by
  rw [countTokens_map words ts fun _ => 0]
  simp

theorem sum_map_zero' : ∀ l : List Str, (l.map fun _ => (0 : Nat)).sum = 0
  | [] => rfl
  | _ :: t => by simp [sum_map_zero' t]

theorem sum_map_add' (f g : Str → Nat) :
    ∀ l : List Str, (l.map fun x => f x + g x).sum = (l.map f).sum + (l.map g).sum
  | [] => rfl
  | x :: t => by
    simp only [List.map_cons, List.sum_cons, sum_map_add' f g t]
    omega

theorem sum_map_indicator (t : Str) :
    ∀ words : List Str, (words.map fun w => if w = t then 1 else 0).sum = words.count t
  | [] => rfl
  | w :: ws => by
    simp only [List.map_cons, List.sum_cons, sum_map_indicator t ws]
    rw [count_cons_flip t w ws]
    rcases eq_or_ne w t with h | h
    · rw [if_pos h, if_pos h.symm]
      omega
    · rw [if_neg h, if_neg (Ne.symm h)]
      omega

/-- Double counting: summing per-word token counts over the word list
equals summing per-token word counts over the token list. -/
theorem sum_map_count (words : List Str) :
    ∀ ts : List Str, (words.map fun w => ts.count w).sum = (ts.map fun t => words.count t).sum
  | [] => by
    simp only [List.count_nil, List.map_nil, List.sum_nil]
    exact sum_map_zero' words
  | t :: ts => by
    have hcc : (words.map fun w => (t :: ts).count w)
        = words.map fun w => (if w = t then 1 else 0) + ts.count w := by
      apply List.map_congr_left
      intro w _
      rw [count_cons_flip w t ts]
      rcases eq_or_ne w t with h | h
      · simp only [if_pos h]
        omega
      · simp only [if_neg h]
        omega
    rw [hcc, sum_map_add', sum_map_indicator, sum_map_count words ts]
    simp only [List.map_cons, List.sum_cons]

theorem addMatches_eq (tok : Str) :
    ∀ (ws : List Str) (acc : Nat), addMatches tok ws acc = acc + ws.count tok
  | [], acc => by simp [addMatches]
  | w :: ws, acc => by
    rw [addMatches, addMatches_eq tok ws, count_cons_flip tok w ws]
    rcases eq_or_ne w tok with h | h
    · rw [if_pos h, if_pos h.symm]
      omega
    · rw [if_neg h, if_neg (Ne.symm h)]
      omega

/-- The classification loop computes the per-category totals. -/
theorem classifyTokens_closed (pos neu neg : List Str) :
    ∀ (ts : List Str) (a b c : Nat),
      classifyTokens pos neu neg ts (a, b, c)
        = (a + (ts.map fun t => pos.count t).sum,
           b + (ts.map fun t => neu.count t).sum,
           c + (ts.map fun t => neg.count t).sum)
  | [], a, b, c => by simp [classifyTokens]
  | t :: ts, a, b, c => by
    rw [classifyTokens, classifyTokens_closed pos neu neg ts]
    simp [addMatches_eq, List.map_cons, List.sum_cons, Nat.add_assoc]

/-! ## Reduced forms of the validated operations -/

/-- Total number of tokens of `t` matching some entry of `W`, counted
with multiplicity across `W`. -/
def tokenTotal (W : List Str) (t : Str) : Nat :=
  ((pySplit t).map fun x => W.count x).sum

/-- The per-word count vector of `t` against the word list `W`. -/
def countVec (t : Str) (W : List Str) : List Nat :=
  W.map fun w => (pySplit t).count w

theorem get_count_vector_ok {t : Str} {W : List Str} (hW : W ≠ [])
    (hWa : W.all pyIsAlpha = true) :
    get_count_vector t W = .ok (countVec t W) := by
  unfold get_count_vector countVec
  rw [isEmpty_false_of_ne_nil hW, hWa]
  simp only [Bool.not_true, Bool.false_eq_true, if_false]
  rw [countTokens_closed]

theorem get_classification_vector_ok {pos neu neg : List Str} {t : Str}
    (hp : pos ≠ []) (hn : neg ≠ []) (hg : neu ≠ [])
    (hpa : pos.all pyIsAlpha = true) (hna : neg.all pyIsAlpha = true)
    (hga : neu.all pyIsAlpha = true) :
    get_classification_vector pos neu neg t
      = .ok (tokenTotal pos t, tokenTotal neu t, tokenTotal neg t) := by
  unfold get_classification_vector tokenTotal
  rw [isEmpty_false_of_ne_nil hp, isEmpty_false_of_ne_nil hn, isEmpty_false_of_ne_nil hg,
    hpa, hna, hga]
  simp only [Bool.not_true, Bool.false_eq_true, if_false]
  rw [classifyTokens_closed]
  simp

theorem process_tweet_ok {tweet : Str} {pos neg neu all : List Str}
    (ht : tweet ≠ []) (hp : pos ≠ []) (hn : neg ≠ []) (hg : neu ≠ []) (ha : all ≠ [])
    (hpa : pos.all pyIsAlpha = true) (hna : neg.all pyIsAlpha = true)
    (hga : neu.all pyIsAlpha = true) (halla : all.all pyIsAlpha = true) :
    process_tweet tweet pos neg neu all
      = .ok ((tokenTotal pos tweet : Int) * 1 + (tokenTotal neu tweet : Int) * 0
              + (tokenTotal neg tweet : Int) * (-1),
             ((countVec tweet all).map
                fun (k : Nat) => (1 / (all.length : ℚ)) * (k : ℚ)).sum) := by
  unfold process_tweet
  rw [isEmpty_false_of_ne_nil ht, isEmpty_false_of_ne_nil hp, isEmpty_false_of_ne_nil hn,
    isEmpty_false_of_ne_nil hg, isEmpty_false_of_ne_nil ha, hpa, hna, hga, halla]
  simp only [Bool.not_true, Bool.false_eq_true, if_false]
  rw [get_count_vector_ok ha halla, get_classification_vector_ok hp hn hg hpa hna hga]

/-- Scaling-and-summing a count vector is division of its sum. -/
theorem qsum (n : ℚ) : ∀ cv : List Nat,
    (cv.map fun (k : Nat) => (1 / n) * (k : ℚ)).sum = ((cv.sum : Nat) : ℚ) / n
  | [] => by simp
  | k :: t => by
    simp only [List.map_cons, List.sum_cons, qsum n t]
    rw [one_div_mul_eq_div, div_add_div_same]
    push_cast
    ring_nf

theorem count_le_one_of_nodup : ∀ {W : List Str}, W.Nodup → ∀ tok : Str, W.count tok ≤ 1
  | [], _, tok => by simp
  | w :: ws, h, tok => by
    have h1 : w ∉ ws := (List.nodup_cons.mp h).1
    have h2 := count_le_one_of_nodup (List.nodup_cons.mp h).2 tok
    rw [count_cons_flip]
    rcases eq_or_ne tok w with he | he
    · subst he
      have h0 : ws.count tok = 0 := List.count_eq_zero.mpr h1
      rw [if_pos rfl]
      omega
    · rw [if_neg he]
      omega

theorem sum_map_le_length (f : Str → Nat) :
    ∀ {ts : List Str}, (∀ t ∈ ts, f t ≤ 1) →
      (ts.map f).sum ≤ ts.length ∧ ((ts.map f).sum = ts.length ↔ ∀ t ∈ ts, f t = 1)
  | [], _ => by simp
  | t :: ts, h => by
    have hft := h t (by simp)
    obtain ⟨ihle, ihiff⟩ := sum_map_le_length f fun x hx => h x (List.mem_cons_of_mem t hx)
    simp only [List.map_cons, List.sum_cons, List.length_cons, List.forall_mem_cons]
    refine ⟨by omega, ?_, ?_⟩
    · intro he
      have h1 : f t = 1 ∧ (ts.map f).sum = ts.length := by omega
      exact ⟨h1.1, ihiff.mp h1.2⟩
    · rintro ⟨h1, h2⟩
      have h3 := ihiff.mpr h2
      omega

/-! ## Claims C1-C4 and C10 -/

/-- C1: on the scenario-1 lexicon and tweet, sanitizing removes the
comma, the classification vector is `(0, 1, 2)`, the count vector
against the full lexicon is `[0, 2, 1]`, the score is `-2` and the
quality index is `3/3 = 1`. -/
theorem claim_C1 :
    sanitize_text (("hoy es un buen dia, pero el clima esta malo malo").toList)
        = ("hoy es un buen dia pero el clima esta malo malo").toList ∧
    get_classification_vector [("bueno").toList] [("dia").toList] [("malo").toList]
        (("hoy es un buen dia pero el clima esta malo malo").toList) = .ok (0, 1, 2) ∧
    get_count_vector (("hoy es un buen dia pero el clima esta malo malo").toList)
        [("bueno").toList, ("malo").toList, ("dia").toList] = .ok [0, 2, 1] ∧
    process_tweet (("hoy es un buen dia pero el clima esta malo malo").toList)
        [("bueno").toList] [("malo").toList] [("dia").toList]
        [("bueno").toList, ("malo").toList, ("dia").toList] = .ok (-2, 1) ∧
    (1 : ℚ) = 3 / 3 := by
  refine ⟨by decide, by decide, by decide, ?_, by norm_num⟩
  rw [process_tweet_ok (by decide) (by decide) (by decide) (by decide) (by decide)
    (by decide) (by decide) (by decide) (by decide)]
  have h1 : tokenTotal [("bueno").toList]
      (("hoy es un buen dia pero el clima esta malo malo").toList) = 0 := by decide
  have h2 : tokenTotal [("dia").toList]
      (("hoy es un buen dia pero el clima esta malo malo").toList) = 1 := by decide
  have h3 : tokenTotal [("malo").toList]
      (("hoy es un buen dia pero el clima esta malo malo").toList) = 2 := by decide
  have hcv : countVec (("hoy es un buen dia pero el clima esta malo malo").toList)
      [("bueno").toList, ("malo").toList, ("dia").toList] = [0, 2, 1] := by decide
  have hlen : ([("bueno").toList, ("malo").toList, ("dia").toList] : List Str).length = 3 := rfl
  rw [h1, h2, h3, hcv, hlen, qsum]
  simp only [Except.ok.injEq, Prod.mk.injEq]
  constructor
  · norm_num
  · norm_num [List.sum_cons, List.sum_nil]

/-- C2: whenever `process_tweet` succeeds, its score is the first slot
of the classification vector minus the third slot (positive matches
minus negative matches); the neutral slot never contributes. -/
theorem claim_C2 (tweet : Str) (pos neg neu all : List Str)
    (ht : tweet ≠ []) (hp : pos ≠ []) (hn : neg ≠ []) (hg : neu ≠ []) (ha : all ≠ [])
    (hpa : pos.all pyIsAlpha = true) (hna : neg.all pyIsAlpha = true)
    (hga : neu.all pyIsAlpha = true) (halla : all.all pyIsAlpha = true) :
    ∃ (s : Int) (q : ℚ) (a b c : Nat),
      process_tweet tweet pos neg neu all = .ok (s, q) ∧
      get_classification_vector pos neu neg tweet = .ok (a, b, c) ∧
      s = (a : Int) - (c : Int) := by
  refine ⟨_, _, tokenTotal pos tweet, tokenTotal neu tweet, tokenTotal neg tweet,
    process_tweet_ok ht hp hn hg ha hpa hna hga halla,
    get_classification_vector_ok hp hn hg hpa hna hga, ?_⟩
  ring

/-- Witness for C2 at the scenario-1 inputs. -/
theorem claim_C2_witness :
    ∃ (s : Int) (q : ℚ) (a b c : Nat),
      process_tweet (("hoy es un buen dia pero el clima esta malo malo").toList)
          [("bueno").toList] [("malo").toList] [("dia").toList]
          [("bueno").toList, ("malo").toList, ("dia").toList] = .ok (s, q) ∧
      get_classification_vector [("bueno").toList] [("dia").toList] [("malo").toList]
          (("hoy es un buen dia pero el clima esta malo malo").toList) = .ok (a, b, c) ∧
      s = (a : Int) - (c : Int) :=
  claim_C2 _ _ _ _ _ (by decide) (by decide) (by decide) (by decide) (by decide)
    (by decide) (by decide) (by decide) (by decide)

/-- C3: whenever `process_tweet` succeeds, the quality index is the sum
of the full-lexicon count vector divided by the lexicon size — a
non-negative rational — and it is not bounded above by 1: a tweet
repeating a lexicon word four times reaches quality `4/3`. -/
theorem claim_C3 :
    (∀ (tweet : Str) (pos neg neu all : List Str),
        tweet ≠ [] → pos ≠ [] → neg ≠ [] → neu ≠ [] → all ≠ [] →
        pos.all pyIsAlpha = true → neg.all pyIsAlpha = true →
        neu.all pyIsAlpha = true → all.all pyIsAlpha = true →
        ∃ (s : Int) (q : ℚ),
          process_tweet tweet pos neg neu all = .ok (s, q) ∧
          get_count_vector tweet all = .ok (countVec tweet all) ∧
          q = (((countVec tweet all).sum : Nat) : ℚ) / ((all.length : Nat) : ℚ) ∧ 0 ≤ q) ∧
    (∃ (s : Int) (q : ℚ),
      process_tweet (("malo malo malo malo").toList)
          [("bueno").toList] [("malo").toList] [("dia").toList]
          [("bueno").toList, ("malo").toList, ("dia").toList] = .ok (s, q) ∧ 1 < q) := by
  constructor
  · intro tweet pos neg neu all ht hp hn hg ha hpa hna hga halla
    refine ⟨_, _, process_tweet_ok ht hp hn hg ha hpa hna hga halla,
      get_count_vector_ok ha halla, qsum _ _, ?_⟩
    rw [qsum]
    exact div_nonneg (Nat.cast_nonneg _) (Nat.cast_nonneg _)
  · refine ⟨_, _, process_tweet_ok (by decide) (by decide) (by decide) (by decide)
      (by decide) (by decide) (by decide) (by decide) (by decide), ?_⟩
    have hcv : countVec (("malo malo malo malo").toList)
        [("bueno").toList, ("malo").toList, ("dia").toList] = [0, 4, 0] := by decide
    have hlen : ([("bueno").toList, ("malo").toList, ("dia").toList] : List Str).length = 3 := rfl
    rw [hcv, hlen, qsum]
    norm_num [List.sum_cons, List.sum_nil]

/-- Witness for C3 at a concrete input. -/
theorem claim_C3_witness :
    ∃ (s : Int) (q : ℚ),
      process_tweet (("dia").toList) [("bueno").toList] [("malo").toList] [("dia").toList]
          [("bueno").toList, ("malo").toList, ("dia").toList] = .ok (s, q) ∧
      get_count_vector (("dia").toList)
          [("bueno").toList, ("malo").toList, ("dia").toList]
        = .ok (countVec (("dia").toList)
            [("bueno").toList, ("malo").toList, ("dia").toList]) ∧
      q = (((countVec (("dia").toList)
            [("bueno").toList, ("malo").toList, ("dia").toList]).sum : Nat) : ℚ)
          / ((([("bueno").toList, ("malo").toList, ("dia").toList] : List Str).length : Nat) : ℚ)
        ∧ 0 ≤ q :=
  claim_C3.1 _ _ _ _ _ (by decide) (by decide) (by decide) (by decide) (by decide)
    (by decide) (by decide) (by decide) (by decide)

/-- C4 fails as stated: with the duplicated word list `["a", "a"]` the
count vector of the one-token text `"a"` sums to 2, exceeding the token
count. -/
theorem claim_C4_counterexample :
    get_count_vector (("a").toList) [("a").toList, ("a").toList] = .ok [1, 1] ∧
    (pySplit (("a").toList)).length = 1 ∧
    ¬(([1, 1] : List Nat).sum ≤ (pySplit (("a").toList)).length) := by
  decide

/-- C4 amended: for a word list without duplicates (as every lexicon
list is), the count vector sums to at most the token count, with
equality exactly when every token matches some word exactly once. -/
theorem claim_C4 (t : Str) (W : List Str) (v : List Nat) (hnd : W.Nodup)
    (hok : get_count_vector t W = .ok v) :
    v.sum ≤ (pySplit t).length ∧
      (v.sum = (pySplit t).length ↔ ∀ tok ∈ pySplit t, W.count tok = 1) := by
  have hW : W ≠ [] := by
    intro he
    subst he
    simp [get_count_vector] at hok
  have hWa : W.all pyIsAlpha = true := by
    by_contra hc
    rw [get_count_vector, isEmpty_false_of_ne_nil hW] at hok
    rw [Bool.not_eq_true] at hc
    rw [hc] at hok
    simp at hok
  rw [get_count_vector_ok hW hWa] at hok
  have hv : v = countVec t W := by
    injection hok with h
    exact h.symm
  subst hv
  unfold countVec
  rw [sum_map_count]
  have hcount : ∀ tok ∈ pySplit t, W.count tok ≤ 1 :=
    fun tok _ => count_le_one_of_nodup hnd tok
  exact sum_map_le_length (fun tok => W.count tok) hcount

/-- Witness for C4 at a concrete input where equality holds. -/
theorem claim_C4_witness :
    (([1, 1, 0] : List Nat).sum ≤ (pySplit (("bueno malo").toList)).length) ∧
      ((([1, 1, 0] : List Nat).sum = (pySplit (("bueno malo").toList)).length) ↔
        ∀ tok ∈ pySplit (("bueno malo").toList),
          ([("bueno").toList, ("malo").toList, ("dia").toList] : List Str).count tok = 1) :=
  claim_C4 _ _ _ (by decide) (by decide)

/-- C10: the classification vector refines the per-word count vectors —
each slot is the sum of the count vector over the corresponding
category list. -/
theorem claim_C10 (pos neu neg : List Str) (t : Str)
    (hp : pos ≠ []) (hn : neg ≠ []) (hg : neu ≠ [])
    (hpa : pos.all pyIsAlpha = true) (hna : neg.all pyIsAlpha = true)
    (hga : neu.all pyIsAlpha = true) :
    ∃ (a b c : Nat) (vp vn vg : List Nat),
      get_classification_vector pos neu neg t = .ok (a, b, c) ∧
      get_count_vector t pos = .ok vp ∧
      get_count_vector t neu = .ok vn ∧
      get_count_vector t neg = .ok vg ∧
      a = vp.sum ∧ b = vn.sum ∧ c = vg.sum := by
  refine ⟨_, _, _, countVec t pos, countVec t neu, countVec t neg,
    get_classification_vector_ok hp hn hg hpa hna hga,
    get_count_vector_ok hp hpa, get_count_vector_ok hg hga, get_count_vector_ok hn hna,
    ?_, ?_, ?_⟩
  · exact (sum_map_count pos (pySplit t)).symm
  · exact (sum_map_count neu (pySplit t)).symm
  · exact (sum_map_count neg (pySplit t)).symm

/-- Witness for C10 at the scenario-1 inputs. -/
theorem claim_C10_witness :
    ∃ (a b c : Nat) (vp vn vg : List Nat),
      get_classification_vector [("bueno").toList] [("dia").toList] [("malo").toList]
          (("hoy es un buen dia pero el clima esta malo malo").toList) = .ok (a, b, c) ∧
      get_count_vector (("hoy es un buen dia pero el clima esta malo malo").toList)
          [("bueno").toList] = .ok vp ∧
      get_count_vector (("hoy es un buen dia pero el clima esta malo malo").toList)
          [("dia").toList] = .ok vn ∧
      get_count_vector (("hoy es un buen dia pero el clima esta malo malo").toList)
          [("malo").toList] = .ok vg ∧
      a = vp.sum ∧ b = vn.sum ∧ c = vg.sum :=
  claim_C10 _ _ _ _ (by decide) (by decide) (by decide) (by decide) (by decide) (by decide)

/-! ## Lexicon loading: claims C7, C8, C9 -/

theorem dedup_length_iff {l : List Str} : l.dedup.length = l.length ↔ l.Nodup := by
  constructor
  · intro h
    have he := (List.dedup_sublist l).eq_of_length h
    exact he ▸ List.nodup_dedup l
  · intro h
    rw [List.dedup_eq_self.mpr h]

theorem load_words_badFormat_iff (fields : List (String × Json)) :
    load_words (.obj fields) = .error .badFormat ↔ validateSchema (.obj fields) = false := by
  constructor
  · intro h
    by_contra hv
    rw [Bool.not_eq_false] at hv
    unfold load_words at h
    rw [if_pos hv] at h
    split at h
    · simp only [List.isEmpty_iff] at h
      split at h
      · simp at h
      · split at h
        · simp at h
        · split at h
          · simp at h
          · split at h
            · simp at h
            · simp at h
    · rename_i himp
      exact himp fields rfl
  · intro h
    unfold load_words
    rw [h]
    simp

/-- C7: every lexicon `load_words` returns is the concatenation of the
three category lists and contains no duplicate sanitized word; any
schema-valid payload with non-empty categories whose sanitized words
collide fails with the duplicate-words error; in particular the
`Café`/`cafe` payload of scenario 3 does. -/
theorem claim_C7 :
    (∀ (j : Json) (p n g all : List Str),
        load_words j = .ok (p, n, g, all) → all = p ++ n ++ g ∧ all.Nodup) ∧
    (∀ fields : List (String × Json),
        validateSchema (.obj fields) = true →
        strsOf (getField fields ("positive")) ≠ [] →
        strsOf (getField fields ("negative")) ≠ [] →
        strsOf (getField fields ("neutral")) ≠ [] →
        ¬((strsOf (getField fields ("positive"))).map sanitize_text
            ++ (strsOf (getField fields ("negative"))).map sanitize_text
            ++ (strsOf (getField fields ("neutral"))).map sanitize_text).Nodup →
        load_words (.obj fields) = .error .duplicates) ∧
    load_words (.obj [(("positive"), .arr [.str (("Café").toList)]),
        (("negative"), .arr [.str (("cafe").toList)]),
        (("neutral"), .arr [.str (("dia").toList)])]) = .error .duplicates := by
  refine ⟨?_, ?_, by decide⟩
  · intro j p n g all h
    unfold load_words at h
    split at h
    · split at h
      · rename_i fields heq
        simp only [List.isEmpty_iff] at h
        split at h
        · simp at h
        · split at h
          · simp at h
          · split at h
            · simp at h
            · split at h
              · simp at h
              · rename_i hdup
                simp only [Except.ok.injEq, Prod.mk.injEq] at h
                obtain ⟨rfl, rfl, rfl, rfl⟩ := h
                refine ⟨rfl, ?_⟩
                rw [Decidable.not_not] at hdup
                exact dedup_length_iff.mp hdup
      · simp at h
    · simp at h
  · intro fields hval hp hn hg hdup
    unfold load_words
    rw [if_pos hval]
    simp only [List.isEmpty_iff]
    rw [if_neg hp, if_neg hn, if_neg hg, if_pos]
    intro he
    exact hdup (dedup_length_iff.mp he)

/-- Witness for C7: a clean three-word lexicon loads, and its combined
word list is the concatenation of the categories with no duplicates. -/
theorem claim_C7_witness :
    ([("bueno").toList, ("malo").toList, ("dia").toList] : List Str)
        = [("bueno").toList] ++ [("malo").toList] ++ [("dia").toList] ∧
      ([("bueno").toList, ("malo").toList, ("dia").toList] : List Str).Nodup :=
  claim_C7.1 (.obj [(("positive"), .arr [.str (("bueno").toList)]),
      (("negative"), .arr [.str (("malo").toList)]),
      (("neutral"), .arr [.str (("dia").toList)])]) _ _ _ _ (by decide)

/-- C8: `load_words` fails with the schema error exactly on object
payloads missing one of the three required keys, carrying an extra
top-level key, or holding a value that is not an array of strings;
the extra-key payload of scenario 4 is such a failure. -/
theorem claim_C8 :
    (∀ fields : List (String × Json),
      load_words (.obj fields) = .error .badFormat ↔
        (¬(∃ kv ∈ fields, kv.1 = ("positive")) ∨ ¬(∃ kv ∈ fields, kv.1 = ("negative")) ∨
          ¬(∃ kv ∈ fields, kv.1 = ("neutral")) ∨
          (∃ kv ∈ fields, ¬(kv.1 = ("positive") ∨ kv.1 = ("negative") ∨ kv.1 = ("neutral"))) ∨
          (∃ kv ∈ fields, isStrArray kv.2 = false))) ∧
    load_words (.obj [(("positive"), .arr [.str (("bueno").toList)]),
        (("negative"), .arr [.str (("malo").toList)]),
        (("neutral"), .arr [.str (("dia").toList)]),
        (("extra"), .arr [])]) = .error .badFormat := by
  refine ⟨?_, by decide⟩
  intro fields
  rw [load_words_badFormat_iff]
  have hdef : validateSchema (.obj fields)
      = ((fields.any fun kv => kv.1 = ("positive")) &&
         (fields.any fun kv => kv.1 = ("negative")) &&
         (fields.any fun kv => kv.1 = ("neutral")) &&
         (fields.all fun kv => keyNames.contains kv.1) &&
         (fields.all fun kv => isStrArray kv.2)) := rfl
  rw [hdef]
  simp only [Bool.and_eq_false_iff, List.any_eq_false, List.all_eq_false,
    decide_eq_true_eq, Bool.not_eq_true, keyNames, List.contains_eq_any_beq,
    List.any_cons, List.any_nil, Bool.or_eq_true, beq_iff_eq, Bool.or_eq_false_iff,
    beq_eq_false_iff_ne, ne_eq, decide_eq_false_iff_not]
  constructor
  · intro h
    rcases h with ((((h | h) | h) | h) | h)
    · exact Or.inl (by push_neg; exact fun kv hkv => h kv hkv)
    · exact Or.inr (Or.inl (by push_neg; exact fun kv hkv => h kv hkv))
    · exact Or.inr (Or.inr (Or.inl (by push_neg; exact fun kv hkv => h kv hkv)))
    · obtain ⟨kv, hkv, h1⟩ := h
      exact Or.inr (Or.inr (Or.inr (Or.inl ⟨kv, hkv, by tauto⟩)))
    · obtain ⟨kv, hkv, h1⟩ := h
      exact Or.inr (Or.inr (Or.inr (Or.inr ⟨kv, hkv, h1⟩)))
  · intro h
    rcases h with h | h | h | h | h
    · exact Or.inl (Or.inl (Or.inl (Or.inl fun kv hkv hp => h ⟨kv, hkv, hp⟩)))
    · exact Or.inl (Or.inl (Or.inl (Or.inr fun kv hkv hp => h ⟨kv, hkv, hp⟩)))
    · exact Or.inl (Or.inl (Or.inr fun kv hkv hp => h ⟨kv, hkv, hp⟩))
    · obtain ⟨kv, hkv, h1⟩ := h
      exact Or.inl (Or.inr ⟨kv, hkv, by tauto⟩)
    · obtain ⟨kv, hkv, h1⟩ := h
      exact Or.inr ⟨kv, hkv, h1⟩

/-- C9 fails as stated: `load_words` performs no alphabeticity check —
the payload with the non-alphabetic word `abc123` loads successfully. -/
theorem claim_C9_counterexample :
    load_words (.obj [(("positive"), .arr [.str (("abc123").toList)]),
        (("negative"), .arr [.str (("malo").toList)]),
        (("neutral"), .arr [.str (("dia").toList)])])
      = .ok ([("abc123").toList], [("malo").toList], [("dia").toList],
          [("abc123").toList, ("malo").toList, ("dia").toList]) := by
  decide

/-- C9 amended: the alphabeticity validation lives downstream of the
loader — `get_count_vector` rejects any word list containing a word
that is not purely alphabetic, with the invalid-word error. -/
theorem claim_C9 (text : Str) (words : List Str)
    (hbad : ∃ w ∈ words, pyIsAlpha w = false) :
    get_count_vector text words = .error .wordsNotAlpha := by
  obtain ⟨w, hw, hwa⟩ := hbad
  have hne : words ≠ [] := by
    intro he
    subst he
    simp at hw
  have hall : words.all pyIsAlpha = false := by
    rw [Bool.eq_false_iff]
    intro hc
    rw [List.all_eq_true] at hc
    exact absurd (hc w hw) (by simp [hwa])
  unfold get_count_vector
  rw [isEmpty_false_of_ne_nil hne, hall]
  simp

/-- Witness for C9: the word list containing `abc123` is rejected. -/
theorem claim_C9_witness :
    get_count_vector (("x").toList) [("abc123").toList] = .error .wordsNotAlpha :=
  claim_C9 _ _ ⟨("abc123").toList, by simp, by decide⟩

end SentimentAnalysis
